import Mathlib

/-!
Shallow embedding of the franchise-tree engine of `utils/anime_franchise_tree.py`:
keyword extraction, the franchise classifier (`is_same_franchise`,
`is_strong_franchise_match`), the cached API fetcher (`fetch_mal_api`), and the
BFS traversal (`build_franchise_tree`).  Python strings are modelled as Lean
`String` (operations implemented over `List Char` to mirror Python's `str`
operations on the ASCII inputs the program handles); Python dicts are modelled
as association lists with replace-on-insert; the external API is modelled as an
explicit environment.  The module defines `is_same_franchise` twice; the second
definition (line 468) shadows the first (line 73), so the bare name below
embeds the second, effective definition, and `is_same_franchise_v1` embeds the
first, shadowed one.
-/

/-- Python's `needle in haystack` substring test on character lists. -/
def listSub (n h : List Char) : Bool :=
  if n.isPrefixOf h then true
  else
    match h with
    | [] => false
    | _ :: t => listSub n t

/-- Python's `needle in haystack` on strings. -/
def strIn (n h : String) : Bool := listSub n.data h.data

/-- Python `str.lower()` (ASCII case folding, as used by the program). -/
def pyLower (s : String) : String := String.mk (s.data.map Char.toLower)

/-- Python `str.split(" x ")`: split on the exact three-character separator,
left to right, non-overlapping, keeping empty segments. -/
def splitX : List Char → List (List Char)
  | [] => [[]]
  | ' ' :: 'x' :: ' ' :: rest => [] :: splitX rest
  | c :: rest =>
    match splitX rest with
    | [] => [[c]]
    | s :: ss => (c :: s) :: ss

/-- Python `str.replace("×", " x ")` (single-character pattern). -/
def expandCross (l : List Char) : List Char :=
  l.foldr (fun c acc => if c = '×' then ' ' :: 'x' :: ' ' :: acc else c :: acc) []

/-- Python `str.strip()`: drop whitespace from both ends. -/
def trimChars (l : List Char) : List Char :=
  ((l.dropWhile Char.isWhitespace).reverse.dropWhile Char.isWhitespace).reverse

/-- Characters matched by the regex class `\w` (word characters). -/
def isWordChar (c : Char) : Bool := c.isAlphanum || c = '_'

/-- Split a character list at every character satisfying `p`, keeping empty
segments (the shape of Python `str.split(sep)` for one-character separators). -/
def splitOnPred (p : Char → Bool) : List Char → List (List Char)
  | [] => [[]]
  | c :: rest =>
    if p c then [] :: splitOnPred p rest
    else
      match splitOnPred p rest with
      | [] => [[c]]
      | s :: ss => (c :: s) :: ss

/-- Python `str.split()` with no argument: split on whitespace runs, dropping
empty segments. -/
def splitWs (l : List Char) : List String :=
  ((splitOnPred (fun c => c.isWhitespace) l).filter (fun s => s ≠ [])).map String.mk

/-- The composite of `re.sub(r"[^\w\s]", " ", text.lower())` and `.split()`
in `extract_root_keywords.clean_and_add`: lowercase, map every non-word
character to a space, split on whitespace runs. -/
def cleanTokens (text : String) : List String :=
  splitWs ((pyLower text).data.map (fun c => if isWordChar c then c else ' '))

/-- The stopword list of `extract_root_keywords`. -/
def exclude_words : List String :=
  ["the", "a", "an", "of", "and", "or", "in", "on", "at", "to", "for", "with", "by"]

/-- One `clean_and_add(text)` call: add the surviving tokens of `text` to the
keyword set (modelled as a duplicate-free list in insertion order). -/
def addKeywordsFrom (acc : List String) (text : String) : List String :=
  (cleanTokens text).foldl
    (fun a w => if w ∈ exclude_words ∨ w.length ≤ 2 ∨ w ∈ a then a else a ++ [w]) acc

/-- Root metadata consumed by `extract_root_keywords` (the fields of the
fetched detail record that the keyword extractor reads). -/
structure AnimeInfo where
  title : String
  title_english : Option String
  synonyms : List String
deriving DecidableEq, Repr

/-- `extract_root_keywords(root_info)`: tokens of the title, English title and
synonyms, minus stopwords and tokens of length at most 2. -/
def extract_root_keywords (info : AnimeInfo) : List String :=
  let k1 := addKeywordsFrom [] info.title
  let k2 :=
    match info.title_english with
    | some t => addKeywordsFrom k1 t
    | none => k1
  info.synonyms.foldl addKeywordsFrom k2

/-- Longest common subsequence length, row-by-row dynamic programming.
`lcsRowNext` computes one new row; `diag` and `left` are the boundary values
of the previous and current row. -/
def lcsRowNext (ca : Char) : List Char → List Nat → Nat → Nat → List Nat
  | [], _, _, _ => []
  | _ :: _, [], _, _ => []
  | cb :: bs, pj :: ps, diag, left =>
    let v := if cb = ca then diag + 1 else max left pj
    v :: lcsRowNext ca bs ps pj v

/-- Length of the longest common subsequence of two character lists. -/
def lcs (a b : List Char) : Nat :=
  (a.foldl (fun prev ca => lcsRowNext ca b prev 0 0) (List.replicate b.length 0)).getLastD 0

/-- Models rapidfuzz `fuzz.ratio`: normalized indel similarity on a 0-100
scale (integer-truncated). -/
def indelSim (a b : List Char) : Nat :=
  if a.length + b.length = 0 then 100
  else 200 * lcs a b / (a.length + b.length)

/-- Lexicographic order on character lists by code point, as Python `sorted`
compares strings. -/
def leChars : List Char → List Char → Bool
  | [], _ => true
  | _ :: _, [] => false
  | a :: as, b :: bs =>
    if a.toNat < b.toNat then true
    else if b.toNat < a.toNat then false
    else leChars as bs

/-- String order used to sort token sets. -/
def strLe (a b : String) : Bool := leChars a.data b.data

/-- Insertion into a `strLe`-sorted list. -/
def insertStr (w : String) : List String → List String
  | [] => [w]
  | x :: xs => if strLe w x then w :: x :: xs else x :: insertStr w xs

/-- Insertion sort by `strLe`. -/
def sortStr (l : List String) : List String := l.foldr insertStr []

/-- Sorted duplicate-free token set of a string (split on whitespace). -/
def fuzzTokens (s : String) : List String :=
  sortStr ((splitWs s.data).foldl (fun acc w => if w ∈ acc then acc else acc ++ [w]) [])

/-- Join character lists with single spaces. -/
def joinChars : List (List Char) → List Char
  | [] => []
  | [x] => x
  | x :: xs => x ++ ' ' :: joinChars xs

/-- Join tokens with single spaces. -/
def joinSp (ts : List String) : String := String.mk (joinChars (ts.map String.data))

/-- Append a difference block to the intersection block and strip. -/
def combineSect (sect rest : String) : String :=
  String.mk (trimChars (sect ++ " " ++ rest).data)

/-- Models rapidfuzz `fuzz.token_set_ratio` (external dependency used by the
shadowed first definition of `is_same_franchise`): the maximum of the pairwise
similarities of the joined token intersection and the two one-sided unions. -/
def fuzzTokenSet (a b : String) : Nat :=
  let ta := fuzzTokens a
  let tb := fuzzTokens b
  let sect := ta.filter (fun w => decide (w ∈ tb))
  let da := ta.filter (fun w => decide (w ∉ tb))
  let db := tb.filter (fun w => decide (w ∉ ta))
  let t0 := joinSp sect
  let t1 := combineSect t0 (joinSp da)
  let t2 := combineSect t0 (joinSp db)
  max (indelSim t0.data t1.data) (max (indelSim t0.data t2.data) (indelSim t1.data t2.data))

/-- The always-accepted relation labels of `is_same_franchise`. -/
def always_accept_relations : List String :=
  ["Side story", "Side Story", "Spin-off", "Character", "Summary", "Full story",
   "Parent story", "Alternative version", "Alternate setting"]

/-- The conditionally-accepted relation labels of `is_same_franchise`. -/
def conditional_relations : List String := ["Other", "Special"]

/-- Python `relation_type in labels` where `relation_type` may be `None`. -/
def optMem (r : Option String) (l : List String) : Bool :=
  match r with
  | some s => decide (s ∈ l)
  | none => false

/-- The effective `is_same_franchise` (second definition, module line 468):
always-accept labels; for `Other`/`Special` mutual title containment, keyword
hit or character hit; otherwise the keyword-count fallback with threshold 0.6
(compared exactly as `10 * matches >= 6 * total`). -/
def is_same_franchise (root_title related_title : String) (relation_type : Option String)
    (root_characters root_keywords : List String) : Bool :=
  if root_title = "" ∨ related_title = "" then false
  else
    let root_lower := pyLower root_title
    let related_lower := pyLower related_title
    if optMem relation_type always_accept_relations then true
    else if optMem relation_type conditional_relations then
      if strIn root_lower related_lower || strIn related_lower root_lower then true
      else if root_keywords.any (fun kw => strIn kw related_lower) then true
      else if root_characters.any (fun c => strIn (pyLower c) related_lower) then true
      else false
    else if root_keywords.isEmpty then false
    else decide (10 * root_keywords.countP (fun w => strIn w related_lower) ≥
      6 * root_keywords.length)

/-- The first, shadowed definition of `is_same_franchise` (module line 73):
identical to the effective one except that the `Other`/`Special` branch also
accepts a shared production studio and a fuzzy token-set similarity of at
least 85. -/
def is_same_franchise_v1 (root_title related_title : String) (relation_type : Option String)
    (root_characters root_keywords root_studios related_studios : List String) : Bool :=
  if root_title = "" ∨ related_title = "" then false
  else
    let root_lower := pyLower root_title
    let related_lower := pyLower related_title
    if optMem relation_type always_accept_relations then true
    else if optMem relation_type conditional_relations then
      if strIn root_lower related_lower || strIn related_lower root_lower then true
      else if root_keywords.any (fun kw => strIn kw related_lower) then true
      else if root_characters.any (fun c => strIn (pyLower c) related_lower) then true
      else if root_studios.any (fun s => decide (s ∈ related_studios)) then true
      else if fuzzTokenSet root_title related_title ≥ 85 then true
      else false
    else if root_keywords.isEmpty then false
    else decide (10 * root_keywords.countP (fun w => strIn w related_lower) ≥
      6 * root_keywords.length)

/-- The base-match condition of `is_strong_franchise_match`, applied to one
(lowercased) character-list segment: root-title substring, keyword hit, or
character-name hit. -/
def baseMatch (root_title : String) (root_keywords root_characters : List String)
    (part : List Char) : Bool :=
  listSub (pyLower root_title).data part
  || root_keywords.any (fun kw => listSub kw.data part)
  || root_characters.any (fun c => listSub (pyLower c).data part)

/-- The crossover segments of a lowercased title: replace `×` by ` x `, split
on ` x `, strip each segment. -/
def crossParts (rl : String) : List (List Char) :=
  (splitX (expandCross rl.data)).map trimChars

/-- `is_strong_franchise_match`: a base match on the whole title is required;
on a crossover-formatted title every split segment must also base-match. -/
def is_strong_franchise_match (root_title related_title : String)
    (root_keywords root_characters : List String) : Bool :=
  if root_title = "" ∨ related_title = "" then false
  else
    let rl := pyLower related_title
    if baseMatch root_title root_keywords root_characters rl.data then
      if strIn " x " rl || strIn "×" rl then
        (crossParts rl).all (baseMatch root_title root_keywords root_characters)
      else true
    else false

/-- A persisted cache record: a readable pickled response, or an unreadable
(corrupt) file. -/
inductive CacheRec
  | good (d : String)
  | corrupt
deriving DecidableEq, Repr

/-- One network attempt's outcome: a 200 response with body `d`, a 429
rate-limit response, or a failure (timeout, connection error, non-2xx status,
bad JSON - everything the `except` arm of the retry loop catches). -/
inductive NetResp
  | success (d : String)
  | rateLimited
  | failure
deriving DecidableEq, Repr

/-- Association-list dictionary with Python dict replace-on-insert semantics. -/
def dictInsert {κ α : Type} [DecidableEq κ] : List (κ × α) → κ → α → List (κ × α)
  | [], k, v => [(k, v)]
  | (k', v') :: t, k, v => if k' = k then (k, v) :: t else (k', v') :: dictInsert t k v

/-- Dictionary lookup. -/
def dictGet {κ α : Type} [DecidableEq κ] (d : List (κ × α)) (k : κ) : Option α :=
  (d.find? (fun p => decide (p.1 = k))).map (fun p => p.2)

/-- The observable outcome of one `fetch_mal_api` call: the returned value
(`.error ()` models an uncaught exception propagating to the caller,
`.ok none` models returning `None`), the cache afterwards, the unconsumed
network stream, the number of network calls made, and the sleeps performed
(in tenths of a second, in order). -/
structure FetchOut where
  result : Except Unit (Option String)
  cache : List (String × CacheRec)
  net : List NetResp
  netCalls : Nat
  sleeps : List Nat

/-- The retry loop of `fetch_mal_api` (`for attempt in range(max_retries)`):
a 429 sleeps 2s and consumes an attempt; any other failure sleeps 1s and
consumes an attempt; a success writes the cache and returns; exhausting the
attempts returns `None`.  An exhausted stream behaves as a connection
failure. -/
def fetchAttempts (url : String) (cache : List (String × CacheRec)) :
    List NetResp → Nat → FetchOut
  | net, 0 => ⟨.ok none, cache, net, 0, []⟩
  | [], n + 1 =>
    let r := fetchAttempts url cache [] n
    ⟨r.result, r.cache, r.net, r.netCalls + 1, 10 :: r.sleeps⟩
  | .success d :: rest, _ + 1 =>
    ⟨.ok (some d), dictInsert cache url (.good d), rest, 1, []⟩
  | .rateLimited :: rest, n + 1 =>
    let r := fetchAttempts url cache rest n
    ⟨r.result, r.cache, r.net, r.netCalls + 1, 20 :: r.sleeps⟩
  | .failure :: rest, n + 1 =>
    let r := fetchAttempts url cache rest n
    ⟨r.result, r.cache, r.net, r.netCalls + 1, 10 :: r.sleeps⟩

/-- `fetch_mal_api(url)` as a state transition on the cache.  The cache key is
the url itself (the md5 hashing is deterministic keying).  A readable cached
record is returned with no network call and no sleep; an unreadable record
makes the bare `pickle.load` raise, modelled as `.error ()`; a miss sleeps the
0.2s pacing delay and runs the retry loop. -/
def fetch_mal_api (url : String) (cache : List (String × CacheRec)) (net : List NetResp)
    (max_retries : Nat) : FetchOut :=
  match dictGet cache url with
  | some (.good d) => ⟨.ok (some d), cache, net, 0, []⟩
  | some .corrupt => ⟨.error (), cache, net, 0, []⟩
  | none =>
    let r := fetchAttempts url cache net max_retries
    ⟨r.result, r.cache, r.net, r.netCalls, 2 :: r.sleeps⟩

/-- A Python value in an id position: the program checks ids with
`isinstance(x, int)`. -/
inductive PyVal
  | int (n : Int)
  | str (s : String)
  | noneV
deriving DecidableEq, Repr

/-- Python `isinstance(v, int)`. -/
def PyVal.isInt : PyVal → Bool
  | .int _ => true
  | _ => false

/-- One element of a relation's `entry` list: `entry.get('mal_id')` (any
value) and `entry.get('name', '')`. -/
structure RelEntry where
  mal_id : PyVal
  name : String
deriving DecidableEq, Repr

/-- One element of the relations response: `relation.get('relation')` and
`relation.get('entry', [])`. -/
structure Relation where
  relation : Option String
  entry : List RelEntry
deriving DecidableEq, Repr

/-- The `ALLOWED_RELATIONS` label set of the module. -/
def ALLOWED_RELATIONS : List String :=
  ["Sequel", "Prequel", "Side story", "Side Story", "Spin-off", "Summary",
   "Alternative version", "Parent story", "Full story", "Other", "Character",
   "Alternate setting"]

/-- `MAX_DEPTH` of the module. -/
def MAX_DEPTH : Nat := 20

/-- The external world one `build_franchise_tree` run observes.  `detail i`
is the composite result of `fetch_anime_info_with_user(i, user_anime_data)`:
`.ok (some info)` a fetched-and-enriched record, `.ok none` the `None` that
every handled failure degrades to, `.error ()` an exception escaping the
fetcher (an unreadable cache record, see `fetch_mal_api`); it is a function
of the id alone because `fetch_anime_info_cached` is memoized by id.
`relationsList` maps ids to the result of fetching and reading that node's
relation edges inside the loop's `try` block (`.error ()` an exception there;
ids absent from the list have no edges).  `characters` is the
`fetch_root_characters(root_id)` result at line 572: that call also goes
through `fetch_mal_api`, so it can raise on a corrupt cached record
(`.error ()`), and it sits outside the loop's `try` block. -/
structure Env where
  detail : Int → Except Unit (Option AnimeInfo)
  relationsList : List (Int × Except Unit (List Relation))
  characters : Except Unit (List String)

/-- `fetch_related_anime(i)` inside the traversal's `try` block. -/
def fetchRelations (env : Env) (i : Int) : Except Unit (List Relation) :=
  match dictGet env.relationsList i with
  | some r => r
  | none => .ok []

/-- The mutable traversal state: `franchise` (values are `Option AnimeInfo`
because line 615 stores the fetch result without a `None` check), `visited`,
the BFS `queue` of (id, depth) pairs, and `enqLog`, a ghost log recording
every id ever appended to the queue (including the root seed), in order. -/
structure BState where
  franchise : List (Int × Option AnimeInfo)
  visited : List Int
  queue : List (Int × Nat)
  enqLog : List Int

/-- The body of the `for entry in relation.get('entry', [])` loop: skip
non-int ids, skip entries failing `is_same_franchise`, and for unvisited ids
enqueue at `depth+1` only on a strong match, mark visited, and record the
fetched entry.  `.error st` models an exception raised by the entry's detail
fetch: the queue/visited updates made before line 615 are kept, the franchise
write is not, and the rest of the node's edges are abandoned (the exception is
caught at the node level). -/
def processEntry (root_title : String) (root_keywords root_characters : List String)
    (env : Env) (relation_type : Option String) (depth : Nat) (st : BState)
    (e : RelEntry) : Except BState BState :=
  match e.mal_id with
  | .int rid =>
    if is_same_franchise root_title e.name relation_type root_characters root_keywords then
      if rid ∈ st.visited then .ok st
      else
        let strong := is_strong_franchise_match root_title e.name root_keywords root_characters
        let q := if strong then st.queue ++ [(rid, depth + 1)] else st.queue
        let lg := if strong then st.enqLog ++ [rid] else st.enqLog
        match env.detail rid with
        | .error _ => .error ⟨st.franchise, rid :: st.visited, q, lg⟩
        | .ok info => .ok ⟨dictInsert st.franchise rid info, rid :: st.visited, q, lg⟩
    else .ok st
  | _ => .ok st

/-- Sequential processing with abandon-on-exception. -/
def processSeq {α : Type} (f : BState → α → Except BState BState) :
    BState → List α → Except BState BState
  | st, [] => .ok st
  | st, x :: xs =>
    match f st x with
    | .ok st' => processSeq f st' xs
    | .error st' => .error st'

/-- One relation of the relations response: entries are processed only when
the label is in `ALLOWED_RELATIONS`. -/
def processRelation (root_title : String) (root_keywords root_characters : List String)
    (env : Env) (depth : Nat) (st : BState) (r : Relation) : Except BState BState :=
  if optMem r.relation ALLOWED_RELATIONS then
    processSeq (processEntry root_title root_keywords root_characters env r.relation depth)
      st r.entry
  else .ok st

/-- The state carried by either outcome of a caught-exception computation. -/
def exPayload : Except BState BState → BState
  | .ok st => st
  | .error st => st

/-- The whole `try` block expanding one dequeued node: any exception (at the
relations fetch or mid-processing) is caught, keeping the state reached so
far. -/
def expandNode (root_title : String) (root_keywords root_characters : List String)
    (env : Env) (st : BState) (cur : Int) (depth : Nat) : BState :=
  match fetchRelations env cur with
  | .error _ => st
  | .ok rels =>
    exPayload (processSeq (processRelation root_title root_keywords root_characters env depth)
      st rels)

/-- The `if depth > 0` re-enrichment of a dequeued node (lines 582-585):
refetch the detail and overwrite the entry when the fetch returns a record;
an exception here (`.error`) is NOT caught - it sits outside the `try`
block. -/
def reEnrich (env : Env) (cur : Int) (depth : Nat) (st : BState) : Except Unit BState :=
  if 0 < depth then
    match env.detail cur with
    | .error e => .error e
    | .ok (some info) =>
      .ok ⟨dictInsert st.franchise cur (some info), st.visited, st.queue, st.enqLog⟩
    | .ok none => .ok st
  else .ok st

/-- The `while queue` loop.  Fuel only bounds the recursion: one unit is spent
per dequeue, and `build_franchise_tree` supplies more fuel than the traversal
can ever dequeue (every dequeue was an enqueue, and there is at most one
enqueue per related entry in the environment plus the root seed), so the
fuel-exhausted arm is unreachable there.  Returns the franchise map (or the
uncaught exception escaping the depth>0 re-enrichment, which sits outside the
`try` block) together with the enqueue log. -/
def bfsLoop (root_title : String) (root_keywords root_characters : List String) (env : Env) :
    Nat → BState → Except Unit (List (Int × Option AnimeInfo)) × List Int
  | 0, st => (.ok st.franchise, st.enqLog)
  | fuel + 1, st =>
    match st.queue with
    | [] => (.ok st.franchise, st.enqLog)
    | (cur, depth) :: qrest =>
      if depth > MAX_DEPTH then
        bfsLoop root_title root_keywords root_characters env fuel
          ⟨st.franchise, st.visited, qrest, st.enqLog⟩
      else
        match reEnrich env cur depth ⟨st.franchise, st.visited, qrest, st.enqLog⟩ with
        | .error e => (.error e, st.enqLog)
        | .ok st2 =>
          bfsLoop root_title root_keywords root_characters env fuel
            (if depth < MAX_DEPTH then
              expandNode root_title root_keywords root_characters env st2 cur depth
            else st2)

/-- Number of related entries a relations result can yield. -/
def relEntryCount : Except Unit (List Relation) → Nat
  | .error _ => 0
  | .ok rels => (rels.map (fun r => r.entry.length)).sum

/-- Fuel bound: the root seed plus one possible enqueue per related entry
mentioned anywhere in the environment. -/
def envFuel (env : Env) : Nat :=
  1 + (env.relationsList.map (fun p => relEntryCount p.2)).sum

/-- `build_franchise_tree(root_id, user_anime_data)`: reject non-int roots
with an empty map; seed queue and visited with the root; fetch and enrich the
root detail (`None` yields an empty map, an exception propagates); fetch the
root characters (line 572, an exception there also propagates - it is outside
the loop's `try` block); derive the signature; run the BFS loop.  Second
component: the ghost enqueue log. -/
def buildFranchiseTreeFull (root_id : PyVal) (env : Env) :
    Except Unit (List (Int × Option AnimeInfo)) × List Int :=
  match root_id with
  | .int rid =>
    match env.detail rid with
    | .error e => (.error e, [rid])
    | .ok none => (.ok [], [rid])
    | .ok (some root_info) =>
      match env.characters with
      | .error e => (.error e, [rid])
      | .ok chars =>
        bfsLoop root_info.title (extract_root_keywords root_info) chars env
          (envFuel env) ⟨[(rid, some root_info)], [rid], [(rid, 0)], [rid]⟩
  | _ => (.ok [], [])

/-- The value `build_franchise_tree` returns (or the exception it raises). -/
def buildFranchiseTree (root_id : PyVal) (env : Env) :
    Except Unit (List (Int × Option AnimeInfo)) :=
  (buildFranchiseTreeFull root_id env).1

/-- Detail record of the root used in the concrete test environments. -/
def infoA : AnimeInfo := ⟨"Alpha Quest", none, []⟩

/-- Detail record of the sequel node in the concrete test environments. -/
def infoA2 : AnimeInfo := ⟨"Alpha Quest II", none, []⟩

/-- Spec Scenario A: root 1 "Alpha Quest" with one Sequel edge to 2
"Alpha Quest II"; all detail fetches succeed. -/
def envScenA : Env :=
  ⟨fun i => if i = 1 then .ok (some infoA) else if i = 2 then .ok (some infoA2) else .ok none,
   [(1, .ok [⟨some "Sequel", [⟨.int 2, "Alpha Quest II"⟩]⟩])], .ok []⟩

/-- Spec Scenario B: root 1 with one `Other` edge to an unrelated title. -/
def envScenB : Env :=
  ⟨fun i => if i = 1 then .ok (some infoA) else .ok none,
   [(1, .ok [⟨some "Other", [⟨.int 3, "Random Unrelated Show"⟩]⟩])], .ok []⟩

/-- Environment whose node 2 has a corrupt cached detail record: its fetch
raises, modelled as `.error ()`. -/
def envCrash : Env :=
  ⟨fun i => if i = 1 then .ok (some infoA) else if i = 2 then .error () else .ok none,
   [(1, .ok [⟨some "Sequel", [⟨.int 2, "Alpha Quest II"⟩]⟩])], .ok []⟩

/-- Detail record for the negative-root environment. -/
def infoNeg : AnimeInfo := ⟨"Zeta", none, []⟩

/-- Environment in which the (invalid per the spec) root id -5 has a detail
record and no relation edges. -/
def envNeg : Env := ⟨fun i => if i = -5 then .ok (some infoNeg) else .ok none, [], .ok []⟩

/-- Traversal invariant for the root binding: the root is bound to its
initially fetched record, the root is visited, and no queued element with
positive depth carries the root id. -/
def RootInv (root : Int) (e0 : AnimeInfo) (st : BState) : Prop :=
  dictGet st.franchise root = some (some e0) ∧ root ∈ st.visited ∧
    ∀ p ∈ st.queue, 0 < p.2 → p.1 ≠ root

/-- Traversal invariant for the enqueue log: it has no duplicates and every
logged id is visited. -/
def LogInv (st : BState) : Prop :=
  st.enqLog.Nodup ∧ ∀ i ∈ st.enqLog, i ∈ st.visited

lemma dictGet_nil {κ α : Type} [DecidableEq κ] (k : κ) :
    dictGet ([] : List (κ × α)) k = none := rfl

lemma dictGet_cons {κ α : Type} [DecidableEq κ] (k' : κ) (v' : α) (t : List (κ × α)) (k : κ) :
    dictGet ((k', v') :: t) k = if k' = k then some v' else dictGet t k := by
  by_cases h : k' = k <;> simp [dictGet, List.find?, h]

lemma dictInsert_cons {κ α : Type} [DecidableEq κ] (k' : κ) (v' : α) (t : List (κ × α))
    (k : κ) (v : α) :
    dictInsert ((k', v') :: t) k v =
      if k' = k then (k, v) :: t else (k', v') :: dictInsert t k v := rfl

lemma dictGet_insert_self {κ α : Type} [DecidableEq κ] (d : List (κ × α)) (k : κ) (v : α) :
    dictGet (dictInsert d k v) k = some v := by
  induction d with
  | nil => simp [dictInsert, dictGet_cons]
  | cons p t ih =>
    obtain ⟨k', v'⟩ := p
    by_cases h : k' = k
    · subst h
      simp [dictInsert_cons, dictGet_cons]
    · simp [dictInsert_cons, h, dictGet_cons, ih]

lemma dictGet_insert_ne {κ α : Type} [DecidableEq κ] (d : List (κ × α)) (k q : κ) (v : α)
    (h : q ≠ k) : dictGet (dictInsert d k v) q = dictGet d q := by
  have hkq : k ≠ q := fun he => h he.symm
  induction d with
  | nil =>
    show dictGet [(k, v)] q = dictGet [] q
    rw [dictGet_cons, if_neg hkq, dictGet_nil]
  | cons p t ih =>
    obtain ⟨k', v'⟩ := p
    by_cases hk : k' = k
    · subst hk
      rw [dictInsert_cons, if_pos rfl, dictGet_cons, dictGet_cons, if_neg hkq, if_neg hkq]
    · rw [dictInsert_cons, if_neg hk, dictGet_cons, dictGet_cons, ih]

lemma dictGet_append_some {κ α : Type} [DecidableEq κ] (l1 l2 : List (κ × α)) (q : κ) (v : α)
    (h : dictGet l1 q = some v) : dictGet (l1 ++ l2) q = some v := by
  induction l1 with
  | nil => simp [dictGet_nil] at h
  | cons p t ih =>
    obtain ⟨k', v'⟩ := p
    rw [dictGet_cons] at h
    by_cases hk : k' = q
    · rw [if_pos hk] at h
      simpa [dictGet_cons, hk] using h
    · rw [if_neg hk] at h
      simpa [dictGet_cons, hk] using ih h

lemma dictGet_append_none {κ α : Type} [DecidableEq κ] (l1 l2 : List (κ × α)) (q : κ)
    (h : dictGet l1 q = none) : dictGet (l1 ++ l2) q = dictGet l2 q := by
  induction l1 with
  | nil => simp
  | cons p t ih =>
    obtain ⟨k', v'⟩ := p
    rw [dictGet_cons] at h
    by_cases hk : k' = q
    · rw [if_pos hk] at h
      simp at h
    · rw [if_neg hk] at h
      simpa [dictGet_cons, hk] using ih h

lemma exPayload_ok (st : BState) : exPayload (.ok st) = st := rfl

lemma exPayload_error (st : BState) : exPayload (.error st) = st := rfl

lemma processSeq_pres {α : Type} (Inv : BState → Prop) (f : BState → α → Except BState BState)
    (hf : ∀ st a, Inv st → Inv (exPayload (f st a))) :
    ∀ (l : List α) (st : BState), Inv st → Inv (exPayload (processSeq f st l)) := by
  intro l
  induction l with
  | nil =>
    intro st h
    simpa [processSeq, exPayload] using h
  | cons x xs ih =>
    intro st h
    have hx := hf st x h
    cases hfx : f st x with
    | ok st' =>
      rw [hfx, exPayload_ok] at hx
      simpa [processSeq, hfx] using ih st' hx
    | error st' =>
      rw [hfx, exPayload_error] at hx
      simpa [processSeq, hfx, exPayload] using hx

lemma processEntry_rootInv (rt : String) (kws chars : List String) (env : Env)
    (ty : Option String) (depth : Nat) (root : Int) (e0 : AnimeInfo) :
    ∀ (st : BState) (ent : RelEntry), RootInv root e0 st →
      RootInv root e0 (exPayload (processEntry rt kws chars env ty depth st ent)) := by
  intro st ent h
  obtain ⟨hf, hv, hq⟩ := h
  obtain ⟨mid, nm⟩ := ent
  cases mid with
  | int rid =>
    by_cases hsame : is_same_franchise rt nm ty chars kws = true
    · by_cases hvis : rid ∈ st.visited
      · simpa [processEntry, hsame, hvis, exPayload] using ⟨hf, hv, hq⟩
      · have hne : rid ≠ root := fun heq => hvis (heq ▸ hv)
        have hqueue : ∀ p ∈ (if is_strong_franchise_match rt nm kws chars then
            st.queue ++ [(rid, depth + 1)] else st.queue), 0 < p.2 → p.1 ≠ root := by
          intro p hp hpos
          by_cases hstr : is_strong_franchise_match rt nm kws chars = true
          · rw [if_pos hstr] at hp
            rcases List.mem_append.mp hp with hp1 | hp2
            · exact hq p hp1 hpos
            · have hpe : p = (rid, depth + 1) := by simpa using hp2
              rw [hpe]
              exact hne
          · rw [if_neg hstr] at hp
            exact hq p hp hpos
        cases hd : env.detail rid with
        | error u =>
          have heq : exPayload (processEntry rt kws chars env ty depth st ⟨.int rid, nm⟩) =
              ⟨st.franchise, rid :: st.visited,
                (if is_strong_franchise_match rt nm kws chars then
                  st.queue ++ [(rid, depth + 1)] else st.queue),
                (if is_strong_franchise_match rt nm kws chars then
                  st.enqLog ++ [rid] else st.enqLog)⟩ := by
            simp [processEntry, hsame, hvis, hd, exPayload]
          rw [heq]
          exact ⟨hf, List.mem_cons_of_mem _ hv, hqueue⟩
        | ok info =>
          have heq : exPayload (processEntry rt kws chars env ty depth st ⟨.int rid, nm⟩) =
              ⟨dictInsert st.franchise rid info, rid :: st.visited,
                (if is_strong_franchise_match rt nm kws chars then
                  st.queue ++ [(rid, depth + 1)] else st.queue),
                (if is_strong_franchise_match rt nm kws chars then
                  st.enqLog ++ [rid] else st.enqLog)⟩ := by
            simp [processEntry, hsame, hvis, hd, exPayload]
          rw [heq]
          refine ⟨?_, List.mem_cons_of_mem _ hv, hqueue⟩
          rw [dictGet_insert_ne _ _ _ _ (Ne.symm hne)]
          exact hf
    · simpa [processEntry, hsame, exPayload] using ⟨hf, hv, hq⟩
  | str s => simpa [processEntry, exPayload] using ⟨hf, hv, hq⟩
  | noneV => simpa [processEntry, exPayload] using ⟨hf, hv, hq⟩

lemma processRelation_rootInv (rt : String) (kws chars : List String) (env : Env)
    (depth : Nat) (root : Int) (e0 : AnimeInfo) :
    ∀ (st : BState) (r : Relation), RootInv root e0 st →
      RootInv root e0 (exPayload (processRelation rt kws chars env depth st r)) := by
  intro st r h
  unfold processRelation
  by_cases hm : optMem r.relation ALLOWED_RELATIONS = true
  · rw [if_pos hm]
    exact processSeq_pres _ _ (processEntry_rootInv rt kws chars env r.relation depth root e0)
      r.entry st h
  · rw [if_neg hm]
    simpa [exPayload] using h

lemma expandNode_rootInv (rt : String) (kws chars : List String) (env : Env)
    (root : Int) (e0 : AnimeInfo) (st : BState) (cur : Int) (depth : Nat)
    (h : RootInv root e0 st) :
    RootInv root e0 (expandNode rt kws chars env st cur depth) := by
  unfold expandNode
  cases hfr : fetchRelations env cur with
  | error u => exact h
  | ok rels =>
    exact processSeq_pres _ _ (processRelation_rootInv rt kws chars env depth root e0) rels st h

lemma reEnrich_rootInv (env : Env) (cur : Int) (depth : Nat) (root : Int) (e0 : AnimeInfo)
    (st st2 : BState) (h : RootInv root e0 st) (hcur : 0 < depth → cur ≠ root)
    (hrun : reEnrich env cur depth st = .ok st2) : RootInv root e0 st2 := by
  obtain ⟨hf, hv, hq⟩ := h
  unfold reEnrich at hrun
  by_cases hd : 0 < depth
  · rw [if_pos hd] at hrun
    cases hdet : env.detail cur with
    | error u =>
      rw [hdet] at hrun
      cases hrun
    | ok info =>
      cases info with
      | none =>
        rw [hdet] at hrun
        cases hrun
        exact ⟨hf, hv, hq⟩
      | some i =>
        rw [hdet] at hrun
        cases hrun
        refine ⟨?_, hv, hq⟩
        rw [dictGet_insert_ne _ _ _ _ (Ne.symm (hcur hd))]
        exact hf
  · rw [if_neg hd] at hrun
    cases hrun
    exact ⟨hf, hv, hq⟩

lemma bfsLoop_rootInv (rt : String) (kws chars : List String) (env : Env)
    (root : Int) (e0 : AnimeInfo) :
    ∀ (fuel : Nat) (st : BState) (m : List (Int × Option AnimeInfo)) (lg : List Int),
      RootInv root e0 st →
      bfsLoop rt kws chars env fuel st = (.ok m, lg) →
      dictGet m root = some (some e0) := by
  intro fuel
  induction fuel with
  | zero =>
    intro st m lg h hrun
    unfold bfsLoop at hrun
    injection hrun with h1 h2
    injection h1 with h3
    rw [← h3]
    exact h.1
  | succ fuel ih =>
    intro st m lg h hrun
    unfold bfsLoop at hrun
    cases hqu : st.queue with
    | nil =>
      simp only [hqu] at hrun
      injection hrun with h1 h2
      injection h1 with h3
      rw [← h3]
      exact h.1
    | cons hd qrest =>
      obtain ⟨cur, depth⟩ := hd
      simp only [hqu] at hrun
      have hqsub : ∀ p ∈ qrest, 0 < p.2 → p.1 ≠ root := fun p hp =>
        h.2.2 p (hqu ▸ List.mem_cons_of_mem _ hp)
      have hst1 : RootInv root e0 ⟨st.franchise, st.visited, qrest, st.enqLog⟩ :=
        ⟨h.1, h.2.1, hqsub⟩
      by_cases hdep : depth > MAX_DEPTH
      · rw [if_pos hdep] at hrun
        exact ih _ m lg hst1 hrun
      · rw [if_neg hdep] at hrun
        cases hre : reEnrich env cur depth ⟨st.franchise, st.visited, qrest, st.enqLog⟩ with
        | error u =>
          rw [hre] at hrun
          simp at hrun
        | ok st2 =>
          rw [hre] at hrun
          dsimp only at hrun
          have hcur : 0 < depth → cur ≠ root := by
            intro h0
            have hmem := h.2.2 (cur, depth) (by rw [hqu]; exact List.mem_cons_self _ _) h0
            simpa using hmem
          have hst2 : RootInv root e0 st2 :=
            reEnrich_rootInv env cur depth root e0 _ st2 hst1 hcur hre
          by_cases hlt : depth < MAX_DEPTH
          · rw [if_pos hlt] at hrun
            exact ih _ m lg (expandNode_rootInv rt kws chars env root e0 st2 cur depth hst2)
              hrun
          · rw [if_neg hlt] at hrun
            exact ih _ m lg hst2 hrun

lemma processEntry_logInv (rt : String) (kws chars : List String) (env : Env)
    (ty : Option String) (depth : Nat) :
    ∀ (st : BState) (ent : RelEntry), LogInv st →
      LogInv (exPayload (processEntry rt kws chars env ty depth st ent)) := by
  intro st ent h
  obtain ⟨hnd, hsub⟩ := h
  obtain ⟨mid, nm⟩ := ent
  cases mid with
  | int rid =>
    by_cases hsame : is_same_franchise rt nm ty chars kws = true
    · by_cases hvis : rid ∈ st.visited
      · simpa [processEntry, hsame, hvis, exPayload] using ⟨hnd, hsub⟩
      · have hnotlog : rid ∉ st.enqLog := fun hin => hvis (hsub rid hin)
        have hnd' : (if is_strong_franchise_match rt nm kws chars then
            st.enqLog ++ [rid] else st.enqLog).Nodup := by
          by_cases hstr : is_strong_franchise_match rt nm kws chars = true
          · rw [if_pos hstr]
            rw [List.nodup_append]
            exact ⟨hnd, List.nodup_singleton rid,
              fun a ha hb => hnotlog ((List.mem_singleton.mp hb) ▸ ha)⟩
          · rw [if_neg hstr]
            exact hnd
        have hsub' : ∀ i ∈ (if is_strong_franchise_match rt nm kws chars then
            st.enqLog ++ [rid] else st.enqLog), i ∈ rid :: st.visited := by
          intro i hi
          by_cases hstr : is_strong_franchise_match rt nm kws chars = true
          · rw [if_pos hstr] at hi
            rcases List.mem_append.mp hi with hi1 | hi2
            · exact List.mem_cons_of_mem _ (hsub i hi1)
            · rw [List.mem_singleton.mp hi2]
              exact List.mem_cons_self _ _
          · rw [if_neg hstr] at hi
            exact List.mem_cons_of_mem _ (hsub i hi)
        cases hd : env.detail rid with
        | error u =>
          have heq : exPayload (processEntry rt kws chars env ty depth st ⟨.int rid, nm⟩) =
              ⟨st.franchise, rid :: st.visited,
                (if is_strong_franchise_match rt nm kws chars then
                  st.queue ++ [(rid, depth + 1)] else st.queue),
                (if is_strong_franchise_match rt nm kws chars then
                  st.enqLog ++ [rid] else st.enqLog)⟩ := by
            simp [processEntry, hsame, hvis, hd, exPayload]
          rw [heq]
          exact ⟨hnd', hsub'⟩
        | ok info =>
          have heq : exPayload (processEntry rt kws chars env ty depth st ⟨.int rid, nm⟩) =
              ⟨dictInsert st.franchise rid info, rid :: st.visited,
                (if is_strong_franchise_match rt nm kws chars then
                  st.queue ++ [(rid, depth + 1)] else st.queue),
                (if is_strong_franchise_match rt nm kws chars then
                  st.enqLog ++ [rid] else st.enqLog)⟩ := by
            simp [processEntry, hsame, hvis, hd, exPayload]
          rw [heq]
          exact ⟨hnd', hsub'⟩
    · simpa [processEntry, hsame, exPayload] using ⟨hnd, hsub⟩
  | str s => simpa [processEntry, exPayload] using ⟨hnd, hsub⟩
  | noneV => simpa [processEntry, exPayload] using ⟨hnd, hsub⟩

lemma processRelation_logInv (rt : String) (kws chars : List String) (env : Env)
    (depth : Nat) :
    ∀ (st : BState) (r : Relation), LogInv st →
      LogInv (exPayload (processRelation rt kws chars env depth st r)) := by
  intro st r h
  unfold processRelation
  by_cases hm : optMem r.relation ALLOWED_RELATIONS = true
  · rw [if_pos hm]
    exact processSeq_pres _ _ (processEntry_logInv rt kws chars env r.relation depth)
      r.entry st h
  · rw [if_neg hm]
    simpa [exPayload] using h

lemma expandNode_logInv (rt : String) (kws chars : List String) (env : Env)
    (st : BState) (cur : Int) (depth : Nat) (h : LogInv st) :
    LogInv (expandNode rt kws chars env st cur depth) := by
  unfold expandNode
  cases hfr : fetchRelations env cur with
  | error u => exact h
  | ok rels =>
    exact processSeq_pres _ _ (processRelation_logInv rt kws chars env depth) rels st h

lemma reEnrich_ok_fields (env : Env) (cur : Int) (depth : Nat) (st st2 : BState)
    (hrun : reEnrich env cur depth st = .ok st2) :
    st2.visited = st.visited ∧ st2.queue = st.queue ∧ st2.enqLog = st.enqLog := by
  unfold reEnrich at hrun
  by_cases hd : 0 < depth
  · rw [if_pos hd] at hrun
    cases hdet : env.detail cur with
    | error u =>
      rw [hdet] at hrun
      cases hrun
    | ok info =>
      cases info with
      | none =>
        rw [hdet] at hrun
        cases hrun
        exact ⟨rfl, rfl, rfl⟩
      | some i =>
        rw [hdet] at hrun
        cases hrun
        exact ⟨rfl, rfl, rfl⟩
  · rw [if_neg hd] at hrun
    cases hrun
    exact ⟨rfl, rfl, rfl⟩

lemma bfsLoop_logInv (rt : String) (kws chars : List String) (env : Env) :
    ∀ (fuel : Nat) (st : BState), LogInv st →
      ((bfsLoop rt kws chars env fuel st).2).Nodup := by
  intro fuel
  induction fuel with
  | zero =>
    intro st h
    unfold bfsLoop
    exact h.1
  | succ fuel ih =>
    intro st h
    unfold bfsLoop
    cases hqu : st.queue with
    | nil =>
      exact h.1
    | cons hd qrest =>
      obtain ⟨cur, depth⟩ := hd
      dsimp only
      have hst1 : LogInv ⟨st.franchise, st.visited, qrest, st.enqLog⟩ := ⟨h.1, h.2⟩
      by_cases hdep : depth > MAX_DEPTH
      · rw [if_pos hdep]
        exact ih _ hst1
      · rw [if_neg hdep]
        cases hre : reEnrich env cur depth ⟨st.franchise, st.visited, qrest, st.enqLog⟩ with
        | error u =>
          exact h.1
        | ok st2 =>
          dsimp only
          have hf2 := reEnrich_ok_fields env cur depth _ st2 hre
          have hst2 : LogInv st2 := by
            refine ⟨?_, ?_⟩
            · rw [hf2.2.2]
              exact h.1
            · rw [hf2.2.2, hf2.1]
              exact h.2
          by_cases hlt : depth < MAX_DEPTH
          · rw [if_pos hlt]
            exact ih _ (expandNode_logInv rt kws chars env st2 cur depth hst2)
          · rw [if_neg hlt]
            exact ih _ hst2

lemma processEntry_env_congr (rt : String) (kws chars : List String) (ty : Option String)
    (depth : Nat) (env1 env2 : Env) (hdet : env1.detail = env2.detail) (st : BState)
    (ent : RelEntry) :
    processEntry rt kws chars env1 ty depth st ent =
      processEntry rt kws chars env2 ty depth st ent := by
  unfold processEntry
  rw [hdet]

lemma processSeq_congr {α : Type} (f g : BState → α → Except BState BState)
    (h : ∀ st a, f st a = g st a) :
    ∀ (l : List α) (st : BState), processSeq f st l = processSeq g st l := by
  intro l
  induction l with
  | nil => intro st; rfl
  | cons x xs ih =>
    intro st
    unfold processSeq
    rw [h st x]
    cases g st x with
    | ok st' => exact ih st'
    | error st' => rfl

lemma processRelation_env_congr (rt : String) (kws chars : List String) (depth : Nat)
    (env1 env2 : Env) (hdet : env1.detail = env2.detail) (st : BState) (r : Relation) :
    processRelation rt kws chars env1 depth st r =
      processRelation rt kws chars env2 depth st r := by
  unfold processRelation
  by_cases hm : optMem r.relation ALLOWED_RELATIONS = true
  · rw [if_pos hm, if_pos hm]
    exact processSeq_congr _ _
      (fun st' a => processEntry_env_congr rt kws chars r.relation depth env1 env2 hdet st' a)
      r.entry st
  · rw [if_neg hm, if_neg hm]

lemma expandNode_congr_of_same_rels (rt : String) (kws chars : List String)
    (env1 env2 : Env) (hdet : env1.detail = env2.detail) (st : BState) (cur : Int)
    (depth : Nat) (hrel : fetchRelations env1 cur = fetchRelations env2 cur) :
    expandNode rt kws chars env1 st cur depth = expandNode rt kws chars env2 st cur depth := by
  unfold expandNode
  rw [hrel]
  cases fetchRelations env2 cur with
  | error u => rfl
  | ok rels =>
    dsimp only
    rw [processSeq_congr _ _
      (fun st' r => processRelation_env_congr rt kws chars depth env1 env2 hdet st' r) rels st]

lemma fetchRelations_append_cons (d : Int → Except Unit (Option AnimeInfo))
    (ch : Except Unit (List String)) (pre post : List (Int × Except Unit (List Relation)))
    (i : Int)
    (x : Except Unit (List Relation)) (q : Int) :
    fetchRelations ⟨d, pre ++ (i, x) :: post, ch⟩ q =
      (match dictGet pre q with
        | some r => r
        | none => if i = q then x else fetchRelations ⟨d, post, ch⟩ q) := by
  unfold fetchRelations
  cases hp : dictGet pre q with
  | some r =>
    rw [show (Env.mk d (pre ++ (i, x) :: post) ch).relationsList = pre ++ (i, x) :: post
      from rfl, dictGet_append_some _ _ _ _ hp]
  | none =>
    rw [show (Env.mk d (pre ++ (i, x) :: post) ch).relationsList = pre ++ (i, x) :: post
      from rfl, dictGet_append_none _ _ _ hp, dictGet_cons]
    by_cases hi : i = q
    · rw [if_pos hi, if_pos hi]
    · rw [if_neg hi, if_neg hi]

lemma expandNode_errRel_congr (rt : String) (kws chars : List String)
    (ch : Except Unit (List String)) (d : Int → Except Unit (Option AnimeInfo))
    (pre post : List (Int × Except Unit (List Relation))) (i : Int) (st : BState)
    (cur : Int) (depth : Nat) :
    expandNode rt kws chars ⟨d, pre ++ (i, .error ()) :: post, ch⟩ st cur depth =
      expandNode rt kws chars ⟨d, pre ++ (i, .ok []) :: post, ch⟩ st cur depth := by
  by_cases hcase : dictGet pre cur = none ∧ i = cur
  · have h1 : fetchRelations ⟨d, pre ++ (i, .error ()) :: post, ch⟩ cur = .error () := by
      rw [fetchRelations_append_cons, hcase.1]
      dsimp only
      rw [if_pos hcase.2]
    have h2 : fetchRelations ⟨d, pre ++ (i, .ok []) :: post, ch⟩ cur = .ok [] := by
      rw [fetchRelations_append_cons, hcase.1]
      dsimp only
      rw [if_pos hcase.2]
    unfold expandNode
    rw [h1, h2]
    rfl
  · have hrel : fetchRelations ⟨d, pre ++ (i, .error ()) :: post, ch⟩ cur =
        fetchRelations ⟨d, pre ++ (i, .ok []) :: post, ch⟩ cur := by
      rw [fetchRelations_append_cons, fetchRelations_append_cons]
      cases hp : dictGet pre cur with
      | some r => rfl
      | none =>
        dsimp only
        have hi : ¬ i = cur := fun he => hcase ⟨hp, he⟩
        rw [if_neg hi, if_neg hi]
    exact expandNode_congr_of_same_rels rt kws chars
      ⟨d, pre ++ (i, .error ()) :: post, ch⟩ ⟨d, pre ++ (i, .ok []) :: post, ch⟩ rfl
      st cur depth hrel

lemma bfsLoop_errRel_congr (rt : String) (kws chars : List String)
    (ch : Except Unit (List String)) (d : Int → Except Unit (Option AnimeInfo))
    (pre post : List (Int × Except Unit (List Relation))) (i : Int) :
    ∀ (fuel : Nat) (st : BState),
      bfsLoop rt kws chars ⟨d, pre ++ (i, .error ()) :: post, ch⟩ fuel st =
        bfsLoop rt kws chars ⟨d, pre ++ (i, .ok []) :: post, ch⟩ fuel st := by
  intro fuel
  induction fuel with
  | zero => intro st; rfl
  | succ fuel ih =>
    intro st
    unfold bfsLoop
    cases hqu : st.queue with
    | nil => rfl
    | cons hd qrest =>
      obtain ⟨cur, depth⟩ := hd
      dsimp only
      by_cases hdep : depth > MAX_DEPTH
      · rw [if_pos hdep, if_pos hdep]
        exact ih _
      · rw [if_neg hdep, if_neg hdep]
        have hre : reEnrich ⟨d, pre ++ (i, .error ()) :: post, ch⟩ cur depth
            ⟨st.franchise, st.visited, qrest, st.enqLog⟩ =
            reEnrich ⟨d, pre ++ (i, .ok []) :: post, ch⟩ cur depth
            ⟨st.franchise, st.visited, qrest, st.enqLog⟩ := rfl
        rw [hre]
        cases hr2 : reEnrich ⟨d, pre ++ (i, .ok []) :: post, ch⟩ cur depth
            ⟨st.franchise, st.visited, qrest, st.enqLog⟩ with
        | error u => rfl
        | ok st2 =>
          dsimp only
          by_cases hlt : depth < MAX_DEPTH
          · rw [if_pos hlt, if_pos hlt,
              expandNode_errRel_congr rt kws chars ch d pre post i st2 cur depth]
            exact ih _
          · rw [if_neg hlt, if_neg hlt]
            exact ih _

lemma envFuel_errRel_eq (d : Int → Except Unit (Option AnimeInfo))
    (ch : Except Unit (List String))
    (pre post : List (Int × Except Unit (List Relation))) (i : Int) :
    envFuel ⟨d, pre ++ (i, .error ()) :: post, ch⟩ =
      envFuel ⟨d, pre ++ (i, .ok []) :: post, ch⟩ := by
  unfold envFuel
  rw [show (Env.mk d (pre ++ (i, (.error () : Except Unit (List Relation))) :: post)
    ch).relationsList = pre ++ (i, .error ()) :: post from rfl]
  rw [show (Env.mk d (pre ++ (i, (.ok [] : Except Unit (List Relation))) :: post)
    ch).relationsList = pre ++ (i, .ok []) :: post from rfl]
  rw [List.map_append, List.map_append, List.sum_append, List.sum_append]
  rfl

lemma bfsLoop_totalOk (rt : String) (kws chars : List String) (env : Env)
    (hok : ∀ j : Int, env.detail j ≠ .error ()) :
    ∀ (fuel : Nat) (st : BState), ∃ m, (bfsLoop rt kws chars env fuel st).1 = .ok m := by
  intro fuel
  induction fuel with
  | zero => intro st; exact ⟨st.franchise, rfl⟩
  | succ fuel ih =>
    intro st
    unfold bfsLoop
    cases hqu : st.queue with
    | nil => exact ⟨st.franchise, rfl⟩
    | cons hd qrest =>
      obtain ⟨cur, depth⟩ := hd
      dsimp only
      by_cases hdep : depth > MAX_DEPTH
      · rw [if_pos hdep]
        exact ih _
      · rw [if_neg hdep]
        cases hre : reEnrich env cur depth ⟨st.franchise, st.visited, qrest, st.enqLog⟩ with
        | error u =>
          exfalso
          unfold reEnrich at hre
          by_cases h0 : 0 < depth
          · rw [if_pos h0] at hre
            cases hdet : env.detail cur with
            | error u2 =>
              cases u2
              exact hok cur hdet
            | ok info =>
              rw [hdet] at hre
              cases info <;> simp at hre
          · rw [if_neg h0] at hre
            simp at hre
        | ok st2 =>
          dsimp only
          by_cases hlt : depth < MAX_DEPTH
          · rw [if_pos hlt]
            exact ih _
          · rw [if_neg hlt]
            exact ih _

/-- C1: the claim states that for `Other`/`Special` edges `is_same_franchise`
accepts iff mutual title containment, keyword hit, character hit, shared
studio, or fuzzy token-set similarity at least 85 holds.  The effective (second,
shadowing) definition has no studio or fuzzy clause: at root title
"abcde fghij" and candidate "fghij abcde" (no containment, no keywords, no
characters) it rejects, although the token-set similarity is 100 and the
shadowed first definition - the one the claim describes and the one the
rapidfuzz import exists for - accepts. -/
theorem c1_conditional_membership_eval :
    is_same_franchise "abcde fghij" "fghij abcde" (some "Other") [] [] = false ∧
    is_same_franchise_v1 "abcde fghij" "fghij abcde" (some "Other") [] [] [] [] = true ∧
    fuzzTokenSet "abcde fghij" "fghij abcde" = 100 :=
  ⟨by decide, by decide, by decide⟩

/-- C2: a returned franchise map contains the root id iff the root
detail-fetch-and-enrich succeeds; when it returns `None` (or the root id is
invalid) the returned map is empty. -/
theorem c2_root_key_iff_root_detail_success :
    (∀ (v : PyVal) (env : Env), v.isInt = false → buildFranchiseTree v env = .ok []) ∧
    (∀ (root : Int) (env : Env) (m : List (Int × Option AnimeInfo)),
      buildFranchiseTree (.int root) env = .ok m →
        (((dictGet m root).isSome = true) ↔ ∃ e, env.detail root = .ok (some e)) ∧
        ((∀ e : AnimeInfo, env.detail root ≠ .ok (some e)) → m = [])) := by
  constructor
  · intro v env hv
    cases v with
    | int n => simp [PyVal.isInt] at hv
    | str s => rfl
    | noneV => rfl
  · intro root env m hbuild
    cases hd : env.detail root with
    | error u =>
      exfalso
      unfold buildFranchiseTree buildFranchiseTreeFull at hbuild
      dsimp only at hbuild
      rw [hd] at hbuild
      simp at hbuild
    | ok info =>
      cases info with
      | none =>
        unfold buildFranchiseTree buildFranchiseTreeFull at hbuild
        dsimp only at hbuild
        rw [hd] at hbuild
        dsimp only at hbuild
        injection hbuild with h3
        constructor
        · constructor
          · intro hs
            rw [← h3, dictGet_nil] at hs
            simp at hs
          · rintro ⟨e, he⟩
            simp at he
        · intro _
          exact h3.symm
      | some e0 =>
        have hinv : RootInv root e0 ⟨[(root, some e0)], [root], [(root, 0)], [root]⟩ := by
          refine ⟨?_, ?_, ?_⟩
          · rw [dictGet_cons, if_pos rfl]
          · exact List.mem_singleton.mpr rfl
          · intro p hp h0
            have hpe : p = (root, 0) := by simpa using hp
            rw [hpe] at h0
            simp at h0
        unfold buildFranchiseTree buildFranchiseTreeFull at hbuild
        dsimp only at hbuild
        rw [hd] at hbuild
        dsimp only at hbuild
        cases hch : env.characters with
        | error u =>
          rw [hch] at hbuild
          simp at hbuild
        | ok chars =>
          rw [hch] at hbuild
          dsimp only at hbuild
          have hpair : bfsLoop e0.title (extract_root_keywords e0) chars env
              (envFuel env) ⟨[(root, some e0)], [root], [(root, 0)], [root]⟩ =
              (.ok m, (bfsLoop e0.title (extract_root_keywords e0) chars env
                (envFuel env) ⟨[(root, some e0)], [root], [(root, 0)], [root]⟩).2) := by
            rw [← hbuild]
          have hget := bfsLoop_rootInv e0.title (extract_root_keywords e0) chars env
            root e0 (envFuel env) _ m _ hinv hpair
          constructor
          · constructor
            · intro _
              exact ⟨e0, rfl⟩
            · intro _
              rw [hget]
              rfl
          · intro hnone
            exact absurd rfl (hnone e0)

/-- C2 witness: on the two-node sequel environment the theorem instantiates to
the root key being present. -/
theorem c2_root_key_witness :
    (((dictGet [((1 : Int), some infoA), (2, some infoA2)] 1).isSome = true) ↔
      ∃ e, envScenA.detail 1 = .ok (some e)) ∧
    ((∀ e : AnimeInfo, envScenA.detail 1 ≠ .ok (some e)) →
      [((1 : Int), some infoA), (2, some infoA2)] = []) :=
  c2_root_key_iff_root_detail_success.2 1 envScenA
    [((1 : Int), some infoA), (2, some infoA2)] rfl

lemma is_strong_eq (rt ct : String) (kws chars : List String) (h0 : ¬(rt = "" ∨ ct = "")) :
    is_strong_franchise_match rt ct kws chars =
      (if baseMatch rt kws chars (pyLower ct).data then
        (if strIn " x " (pyLower ct) || strIn "×" (pyLower ct) then
          (crossParts (pyLower ct)).all (baseMatch rt kws chars)
        else true)
      else false) := by
  unfold is_strong_franchise_match
  rw [if_neg h0]

/-- C3: on a candidate title containing a crossover separator, a `true` result
of `is_strong_franchise_match` implies that every segment obtained by
splitting the lowercased title on the separator satisfies the base-match
condition; a single matching segment is insufficient. -/
theorem c3_crossover_requires_all_segments (rt ct : String) (kws chars : List String)
    (hsep : (strIn " x " (pyLower ct) || strIn "×" (pyLower ct)) = true)
    (hstrong : is_strong_franchise_match rt ct kws chars = true) :
    ∀ p ∈ crossParts (pyLower ct), baseMatch rt kws chars p = true := by
  intro p hp
  by_cases h0 : rt = "" ∨ ct = ""
  · unfold is_strong_franchise_match at hstrong
    rw [if_pos h0] at hstrong
    exact absurd hstrong (by simp)
  · rw [is_strong_eq rt ct kws chars h0] at hstrong
    by_cases hb : baseMatch rt kws chars (pyLower ct).data = true
    · rw [if_pos hb, if_pos hsep] at hstrong
      simpa using List.all_eq_true.mp hstrong p hp
    · rw [if_neg hb] at hstrong
      exact absurd hstrong (by simp)

/-- C3 witness: "alpha x alpha beta" with root "alpha" is a strong match, and
the theorem yields that the segment "alpha beta" base-matches. -/
theorem c3_crossover_witness : baseMatch "alpha" [] [] ("alpha beta").data = true :=
  c3_crossover_requires_all_segments "alpha" "alpha x alpha beta" [] [] (by decide)
    (by decide) ("alpha beta").data (by decide)

/-- C6 counterexample: the root id -5 is an int, so the `isinstance` check
passes and the traversal proceeds; with a detail record available for -5 the
returned map is non-empty, contradicting the claim that non-positive roots
fail with InvalidInput and an empty map. -/
theorem c6_negative_root_counterexample :
    buildFranchiseTree (.int (-5)) envNeg = .ok [(-5, some infoNeg)] ∧
    ([((-5 : Int), some infoNeg)] : List (Int × Option AnimeInfo)) ≠ [] :=
  ⟨rfl, by decide⟩

/-- C6 amended: `build_franchise_tree` validates only that the root id is an
int (`isinstance(root_id, int)`); every non-int root yields an immediate empty
map with no partial state (empty enqueue log); non-positive ints are not
rejected. -/
theorem c6_type_check_only (v : PyVal) (env : Env) (hv : v.isInt = false) :
    buildFranchiseTreeFull v env = (.ok [], []) := by
  cases v with
  | int n => simp [PyVal.isInt] at hv
  | str s => rfl
  | noneV => rfl

/-- C6 witness: a string root id yields the empty result. -/
theorem c6_type_check_witness :
    buildFranchiseTreeFull (.str "Alpha Quest") envNeg = (.ok [], []) :=
  c6_type_check_only (.str "Alpha Quest") envNeg rfl

/-- C7: a related entry with an int id that passes `is_same_franchise` and is
unvisited is always recorded into the franchise map keyed by its id with the
detail fetched at that moment (when that fetch returns), regardless of the
strong-match outcome; only the enqueue at depth+1 (and the enqueue log) is
conditional on `is_strong_franchise_match`. -/
theorem c7_record_unconditional_enqueue_conditional (rt : String)
    (kws chars : List String) (env : Env) (ty : Option String) (depth : Nat) (st : BState)
    (rid : Int) (nm : String) (info : Option AnimeInfo)
    (hsame : is_same_franchise rt nm ty chars kws = true)
    (hvis : rid ∉ st.visited)
    (hd : env.detail rid = .ok info) :
    processEntry rt kws chars env ty depth st ⟨.int rid, nm⟩ =
      .ok ⟨dictInsert st.franchise rid info, rid :: st.visited,
        (if is_strong_franchise_match rt nm kws chars then
          st.queue ++ [(rid, depth + 1)] else st.queue),
        (if is_strong_franchise_match rt nm kws chars then
          st.enqLog ++ [rid] else st.enqLog)⟩ := by
  simp [processEntry, hsame, hvis, hd]

/-- C7 witness: entry 7 "Alpha Quest Movie" under an always-accept label is
recorded (here with a failed enrich, stored as `none`) and enqueued because the
strong match holds. -/
theorem c7_record_witness :
    processEntry "Alpha Quest" [] [] envScenB (some "Side story") 0 ⟨[], [], [], []⟩
      ⟨.int 7, "Alpha Quest Movie"⟩ =
      .ok ⟨[(7, none)], [7], [(7, 1)], [7]⟩ :=
  c7_record_unconditional_enqueue_conditional "Alpha Quest" [] [] envScenB
    (some "Side story") 0 ⟨[], [], [], []⟩ 7 "Alpha Quest Movie" none (by decide)
    (by decide) rfl

/-- C9: within one invocation of `build_franchise_tree` no id is appended to
the traversal queue more than once: the ghost enqueue log (which records every
`queue.append`, including the root seed) has no duplicates, on every run and
every environment. -/
theorem c9_no_duplicate_enqueue (root_id : PyVal) (env : Env) :
    ((buildFranchiseTreeFull root_id env).2).Nodup := by
  cases root_id with
  | int rid =>
    unfold buildFranchiseTreeFull
    dsimp only
    cases hd : env.detail rid with
    | error u => simp
    | ok info =>
      cases info with
      | none => simp
      | some e0 =>
        dsimp only
        cases hch : env.characters with
        | error u => simp
        | ok chars =>
          dsimp only
          have h0 : LogInv ⟨[(rid, some e0)], [rid], [(rid, 0)], [rid]⟩ := by
            refine ⟨List.nodup_singleton _, ?_⟩
            intro i hi
            simpa using hi
          exact bfsLoop_logInv _ _ _ env (envFuel env) _ h0
  | str s => simp [buildFranchiseTreeFull]
  | noneV => simp [buildFranchiseTreeFull]

/-- C10: throughout one invocation, the root id stays bound in the result map
to exactly the root record fetched at initialization: the root is visited
before the loop and never re-enqueued, so the depth>0 re-enrichment never runs
for it and no loop iteration overwrites its entry. -/
theorem c10_root_entry_never_overwritten (root : Int) (env : Env) (e0 : AnimeInfo)
    (m : List (Int × Option AnimeInfo))
    (hd : env.detail root = .ok (some e0))
    (hbuild : buildFranchiseTree (.int root) env = .ok m) :
    dictGet m root = some (some e0) := by
  have hinv : RootInv root e0 ⟨[(root, some e0)], [root], [(root, 0)], [root]⟩ := by
    refine ⟨?_, ?_, ?_⟩
    · rw [dictGet_cons, if_pos rfl]
    · exact List.mem_singleton.mpr rfl
    · intro p hp h0
      have hpe : p = (root, 0) := by simpa using hp
      rw [hpe] at h0
      simp at h0
  unfold buildFranchiseTree buildFranchiseTreeFull at hbuild
  dsimp only at hbuild
  rw [hd] at hbuild
  dsimp only at hbuild
  cases hch : env.characters with
  | error u =>
    rw [hch] at hbuild
    simp at hbuild
  | ok chars =>
    rw [hch] at hbuild
    dsimp only at hbuild
    have hpair : bfsLoop e0.title (extract_root_keywords e0) chars env
        (envFuel env) ⟨[(root, some e0)], [root], [(root, 0)], [root]⟩ =
        (.ok m, (bfsLoop e0.title (extract_root_keywords e0) chars env
          (envFuel env) ⟨[(root, some e0)], [root], [(root, 0)], [root]⟩).2) := by
      rw [← hbuild]
    exact bfsLoop_rootInv e0.title (extract_root_keywords e0) chars env
      root e0 (envFuel env) _ m _ hinv hpair

/-- C10 witness: in the sequel scenario the root entry of the result map is
exactly the initially fetched record. -/
theorem c10_root_entry_witness :
    dictGet [((1 : Int), some infoA), (2, some infoA2)] 1 = some (some infoA) :=
  c10_root_entry_never_overwritten 1 envScenA infoA
    [((1 : Int), some infoA), (2, some infoA2)] rfl rfl

/-- C4: on a cache miss whose first network attempt succeeds, the response is
written to the cache before being returned and exactly one network call is
made; a second call with the identical request is served the identical value
from the cache with no network call and no sleep, leaving cache and network
stream untouched. -/
theorem c4_cache_idempotent_single_network_call (url : String)
    (cache : List (String × CacheRec)) (d : String) (rest : List NetResp)
    (hmiss : dictGet cache url = none) :
    (fetch_mal_api url cache (.success d :: rest) 3).result = .ok (some d) ∧
    dictGet (fetch_mal_api url cache (.success d :: rest) 3).cache url = some (.good d) ∧
    (fetch_mal_api url cache (.success d :: rest) 3).netCalls = 1 ∧
    (fetch_mal_api url (fetch_mal_api url cache (.success d :: rest) 3).cache
      (fetch_mal_api url cache (.success d :: rest) 3).net 3).result = .ok (some d) ∧
    (fetch_mal_api url (fetch_mal_api url cache (.success d :: rest) 3).cache
      (fetch_mal_api url cache (.success d :: rest) 3).net 3).netCalls = 0 ∧
    (fetch_mal_api url (fetch_mal_api url cache (.success d :: rest) 3).cache
      (fetch_mal_api url cache (.success d :: rest) 3).net 3).sleeps = [] ∧
    (fetch_mal_api url (fetch_mal_api url cache (.success d :: rest) 3).cache
      (fetch_mal_api url cache (.success d :: rest) 3).net 3).cache =
      (fetch_mal_api url cache (.success d :: rest) 3).cache ∧
    (fetch_mal_api url (fetch_mal_api url cache (.success d :: rest) 3).cache
      (fetch_mal_api url cache (.success d :: rest) 3).net 3).net =
      (fetch_mal_api url cache (.success d :: rest) 3).net := by
  have h1 : fetch_mal_api url cache (.success d :: rest) 3 =
      ⟨.ok (some d), dictInsert cache url (.good d), rest, 1, [2]⟩ := by
    unfold fetch_mal_api
    rw [hmiss]
    rfl
  have h2 : fetch_mal_api url (dictInsert cache url (.good d)) rest 3 =
      ⟨.ok (some d), dictInsert cache url (.good d), rest, 0, []⟩ := by
    unfold fetch_mal_api
    rw [dictGet_insert_self]
  refine ⟨?_, ?_, ?_, ?_, ?_, ?_, ?_, ?_⟩ <;>
    simp [h1, h2, dictGet_insert_self]

/-- C4 witness: the theorem at the concrete request "u" with fresh cache and a
single successful response. -/
theorem c4_cache_witness :
    (fetch_mal_api "u" [] [.success "D"] 3).result = .ok (some "D") ∧
    dictGet (fetch_mal_api "u" [] [.success "D"] 3).cache "u" = some (.good "D") ∧
    (fetch_mal_api "u" [] [.success "D"] 3).netCalls = 1 ∧
    (fetch_mal_api "u" (fetch_mal_api "u" [] [.success "D"] 3).cache
      (fetch_mal_api "u" [] [.success "D"] 3).net 3).result = .ok (some "D") ∧
    (fetch_mal_api "u" (fetch_mal_api "u" [] [.success "D"] 3).cache
      (fetch_mal_api "u" [] [.success "D"] 3).net 3).netCalls = 0 ∧
    (fetch_mal_api "u" (fetch_mal_api "u" [] [.success "D"] 3).cache
      (fetch_mal_api "u" [] [.success "D"] 3).net 3).sleeps = [] ∧
    (fetch_mal_api "u" (fetch_mal_api "u" [] [.success "D"] 3).cache
      (fetch_mal_api "u" [] [.success "D"] 3).net 3).cache =
      (fetch_mal_api "u" [] [.success "D"] 3).cache ∧
    (fetch_mal_api "u" (fetch_mal_api "u" [] [.success "D"] 3).cache
      (fetch_mal_api "u" [] [.success "D"] 3).net 3).net =
      (fetch_mal_api "u" [] [.success "D"] 3).net :=
  c4_cache_idempotent_single_network_call "u" [] "D" [] rfl

/-- C5 counterexample: with a corrupt record cached for "u" and a fresh
response available on the network, the fetcher raises (`.error ()`) with zero
network calls instead of treating the unreadable record as a miss and
reissuing the request. -/
theorem c5_corrupt_cache_counterexample :
    fetch_mal_api "u" [("u", .corrupt)] [.success "fresh"] 3 =
      ⟨.error (), [("u", .corrupt)], [.success "fresh"], 0, []⟩ := rfl

/-- C5 amended: an unreadable cached record is NOT treated as a cache miss:
the bare `pickle.load` has no handler, so the read failure propagates to the
caller with no network call, no sleep and no cache change; only an absent
record triggers a fresh request. -/
theorem c5_corrupt_cache_raises (url : String) (cache : List (String × CacheRec))
    (net : List NetResp) (r : Nat) (hcor : dictGet cache url = some .corrupt) :
    fetch_mal_api url cache net r = ⟨.error (), cache, net, 0, []⟩ := by
  unfold fetch_mal_api
  rw [hcor]

/-- C5 witness: the amended theorem at a concrete corrupt record. -/
theorem c5_corrupt_cache_witness :
    fetch_mal_api "v" [("v", .corrupt)] [] 3 = ⟨.error (), [("v", .corrupt)], [], 0, []⟩ :=
  c5_corrupt_cache_raises "v" [("v", .corrupt)] [] 3 rfl

/-- C8 counterexample: root 1 succeeds, its Sequel edge to id 2 is recorded
and enqueued, and the depth-1 re-enrichment of node 2 raises (corrupt cached
detail).  That raise sits outside the loop's `try` block, so
`build_franchise_tree` propagates it instead of returning a (partial) map -
contradicting "no sub-traversal failure is fatal; the only caller-visible
failure is InvalidInput". -/
theorem c8_uncaught_reenrich_counterexample :
    buildFranchiseTree (.int 1) envCrash = .error () := rfl

/-- C8 amended: errors raised inside the loop's `try` block are caught and the
traversal continues with the state reached so far, the rest of the queue
unaffected.  Precisely: an error at the relations fetch makes the node behave
exactly like a node with no edges (conjunct 1); an error raised mid-processing
is caught, keeping the effects of the entries already processed (conjunct 2),
and a line-615 enrichment raise in particular keeps the failing entry's
visited mark and conditional enqueue while writing no franchise record
(conjunct 3) - so such a node is not a plain leaf.  When no detail fetch
raises and the root-characters fetch does not raise, `build_franchise_tree`
always returns a (possibly partial or empty) map (conjunct 4).  But raises
outside the `try` block propagate: besides the depth>0 re-enrichment of the
counterexample, a root-characters fetch raise (line 572) escapes even when no
detail fetch raises (conjunct 5), so InvalidInput is not the only
caller-visible failure. -/
theorem c8_node_failure_leaf_and_totality :
    (∀ (d : Int → Except Unit (Option AnimeInfo)) (ch : Except Unit (List String))
        (pre post : List (Int × Except Unit (List Relation))) (i : Int) (root : PyVal),
      buildFranchiseTreeFull root ⟨d, pre ++ (i, .error ()) :: post, ch⟩ =
        buildFranchiseTreeFull root ⟨d, pre ++ (i, .ok []) :: post, ch⟩) ∧
    (∀ (rt : String) (kws chars : List String) (env : Env) (st st' : BState)
        (cur : Int) (depth : Nat) (rels : List Relation),
      fetchRelations env cur = .ok rels →
      processSeq (processRelation rt kws chars env depth) st rels = .error st' →
      expandNode rt kws chars env st cur depth = st') ∧
    (∀ (rt : String) (kws chars : List String) (env : Env) (ty : Option String)
        (depth : Nat) (st : BState) (rid : Int) (nm : String),
      is_same_franchise rt nm ty chars kws = true →
      rid ∉ st.visited →
      env.detail rid = .error () →
      processEntry rt kws chars env ty depth st ⟨.int rid, nm⟩ =
        .error ⟨st.franchise, rid :: st.visited,
          (if is_strong_franchise_match rt nm kws chars then
            st.queue ++ [(rid, depth + 1)] else st.queue),
          (if is_strong_franchise_match rt nm kws chars then
            st.enqLog ++ [rid] else st.enqLog)⟩) ∧
    (∀ (root : PyVal) (env : Env), (∀ j : Int, env.detail j ≠ .error ()) →
      env.characters ≠ .error () →
      ∃ m, buildFranchiseTree root env = .ok m) ∧
    (∀ (rid : Int) (env : Env) (e0 : AnimeInfo),
      env.detail rid = .ok (some e0) →
      env.characters = .error () →
      buildFranchiseTree (.int rid) env = .error ()) := by
  refine ⟨?_, ?_, ?_, ?_, ?_⟩
  · intro d ch pre post i root
    cases root with
    | int rid =>
      unfold buildFranchiseTreeFull
      dsimp only
      cases hd : d rid with
      | error u => rfl
      | ok info =>
        cases info with
        | none => rfl
        | some e0 =>
          dsimp only
          cases hch : ch with
          | error u => rfl
          | ok chars =>
            dsimp only
            rw [envFuel_errRel_eq d (.ok chars) pre post i]
            rw [bfsLoop_errRel_congr e0.title (extract_root_keywords e0) chars (.ok chars)
              d pre post i (envFuel ⟨d, pre ++ (i, .ok []) :: post, .ok chars⟩)
              ⟨[(rid, some e0)], [rid], [(rid, 0)], [rid]⟩]
    | str s => rfl
    | noneV => rfl
  · intro rt kws chars env st st' cur depth rels hfetch hproc
    unfold expandNode
    rw [hfetch]
    dsimp only
    rw [hproc]
    rfl
  · intro rt kws chars env ty depth st rid nm hsame hvis hd
    simp [processEntry, hsame, hvis, hd]
  · intro root env hok hch
    cases root with
    | int rid =>
      unfold buildFranchiseTree buildFranchiseTreeFull
      dsimp only
      cases hd : env.detail rid with
      | error u =>
        exfalso
        cases u
        exact hok rid hd
      | ok info =>
        cases info with
        | none => exact ⟨[], rfl⟩
        | some e0 =>
          cases hch2 : env.characters with
          | error u =>
            exfalso
            cases u
            exact hch hch2
          | ok chars =>
            dsimp only
            exact bfsLoop_totalOk e0.title (extract_root_keywords e0) chars env hok
              (envFuel env) ⟨[(rid, some e0)], [rid], [(rid, 0)], [rid]⟩
    | str s => exact ⟨[], rfl⟩
    | noneV => exact ⟨[], rfl⟩
  · intro rid env e0 hd hch
    unfold buildFranchiseTree buildFranchiseTreeFull
    dsimp only
    rw [hd]
    dsimp only
    rw [hch]

/-- C8 witness: on the raise-free sequel environment the totality conjunct
yields a returned map. -/
theorem c8_totality_witness : ∃ m, buildFranchiseTree (.int 1) envScenA = .ok m :=
  c8_node_failure_leaf_and_totality.2.2.2.1 (.int 1) envScenA
    (by
      intro j h
      simp only [envScenA] at h
      split_ifs at h)
    (by simp [envScenA])
